import Mathlib

/-!
Shallow embedding of `src/risk_normalization.cpp` (the Monte-Carlo
risk-normalization engine) and proofs about it.

Modelling conventions:
* C++ `double` arithmetic is modelled exactly: trade returns, equity and
  drawdowns live in `ℚ`; the intrinsically irrational quantities
  (`std::sqrt` in `computeStdDev`, `std::pow` in `calculateCAGR`) live in `ℝ`.
* The `std::mt19937` generator is modelled as an abstract stream of raw
  draws `Rng : Nat → Nat` together with the position `g` of the next draw;
  `std::uniform_int_distribution<>(0, n-1)` applied to the k-th draw is
  modelled as `rng k % n`.
* Out-of-bounds vector accesses (undefined behaviour in C++) are modelled
  by `Option`: the simulation functions return `none` exactly when such an
  access occurs.
-/

namespace RiskNormalization

/-- Abstract model of the pseudo-random stream: the value of the k-th raw draw. -/
abbrev Rng : Type := Nat → Nat

/-- C++ `computeMean`: `0.0` on an empty vector, else the arithmetic mean. -/
noncomputable def computeMean (data : List ℝ) : ℝ :=
  if data.isEmpty then 0 else data.sum / data.length

/-- C++ `computeStdDev`: `0.0` when fewer than two elements, else the
Bessel-corrected sample standard deviation about the given mean. -/
noncomputable def computeStdDev (data : List ℝ) (mean : ℝ) : ℝ :=
  if data.length < 2 then 0
  else Real.sqrt ((data.map fun x => (x - mean) * (x - mean)).sum
                    / ((data.length - 1 : ℕ) : ℝ))

/-- The scan inside C++ `calculateDrawdown`: running peak and running
maximum drawdown over the remaining points. -/
def drawdownAux (peak maxdd : ℚ) : List ℚ → ℚ
  | [] => maxdd
  | e :: rest =>
    let peak2 := if e > peak then e else peak
    let dd := (peak2 - e) / peak2
    drawdownAux peak2 (if dd > maxdd then dd else maxdd) rest

/-- C++ `calculateDrawdown`: the peak starts at `equity_curve[0]` and the loop
runs over every point, including the first.  The C++ code reads
`equity_curve[0]` unconditionally, so the empty-curve case is undefined
behaviour there; it is never reached by the program and is mapped to `0`. -/
def calculateDrawdown (equity_curve : List ℚ) : ℚ :=
  match equity_curve with
  | [] => 0
  | c0 :: _ => drawdownAux c0 0 equity_curve

/-- C++ `calculateCAGR`: sentinel `0.0` when any argument is non-positive,
else `((final/initial)^(1/years) - 1) * 100`. -/
noncomputable def calculateCAGR (initial_equity final_equity years : ℝ) : ℝ :=
  if initial_equity ≤ 0 ∨ final_equity ≤ 0 ∨ years ≤ 0 then 0
  else ((final_equity / initial_equity) ^ ((1 : ℝ) / years) - 1) * 100

/-- The simulation loop of C++ `make_one_equity_sequence`: starting from
equity `prev`, perform `n` resampled steps, consuming draws `g, g+1, …`.
Returns the equity values after each step (curve points 1..n). -/
def equityFrom (trades : List ℚ) (fraction : ℚ) (rng : Rng) :
    ℚ → Nat → Nat → Option (List ℚ)
  | _, _, 0 => some []
  | prev, g, Nat.succ n => do
    let idx := rng g % trades.length
    let t ← trades[idx]?
    let next := prev + t * fraction * prev
    let rest ← equityFrom trades fraction rng next (g + 1) n
    some (next :: rest)

/-- C++ `make_one_equity_sequence`: the equity curve
(`number_trades_in_forecast + 1` points, point 0 the initial capital) paired
with its maximum drawdown. -/
def make_one_equity_sequence (trades : List ℚ) (fraction : ℚ)
    (number_trades_in_forecast : Nat) (initial_capital : ℚ)
    (rng : Rng) (g : Nat) : Option (List ℚ × ℚ) := do
  let rest ← equityFrom trades fraction rng initial_capital g number_trades_in_forecast
  let equity_curve := initial_capital :: rest
  some (equity_curve, calculateDrawdown equity_curve)

/-- The counting loop of C++ `analyze_distribution_of_drawdown`: number of
simulated curves (out of the given count) whose drawdown exceeds the
tolerance.  Each curve consumes `N` draws. -/
def countExceed (trades : List ℚ) (fraction : ℚ) (N : Nat)
    (initial_capital drawdown_tolerance : ℚ) (rng : Rng) :
    Nat → Nat → Option Nat
  | _, 0 => some 0
  | g, Nat.succ k => do
    let res ← make_one_equity_sequence trades fraction N initial_capital rng g
    let rest ← countExceed trades fraction N initial_capital drawdown_tolerance rng (g + N) k
    some ((if res.2 > drawdown_tolerance then 1 else 0) + rest)

/-- C++ `analyze_distribution_of_drawdown`: empirical tail probability,
`count_exceed / number_equity_in_CDF`. -/
def analyze_distribution_of_drawdown (trades : List ℚ) (fraction : ℚ)
    (N : Nat) (initial_capital drawdown_tolerance : ℚ)
    (number_equity_in_CDF : Nat) (rng : Rng) (g : Nat) : Option ℚ := do
  let c ← countExceed trades fraction N initial_capital drawdown_tolerance rng g number_equity_in_CDF
  some ((c : ℚ) / (number_equity_in_CDF : ℚ))

/-- The per-repetition bisection loop inside C++ `risk_normalization`,
written with explicit fuel `max_iterations - iteration`.  State mirrors the
C++ loop: `lower_bound`, `upper_bound`, current `fraction`, `iteration`
count and the stream position.  Returns the recorded fraction, the final
iteration count and the new stream position. -/
def bisectLoop (trades : List ℚ) (N : Nat)
    (initial_capital drawdown_tolerance : ℚ) (number_equity_in_CDF : Nat)
    (target accuracy : ℚ) (rng : Rng) :
    Nat → ℚ → ℚ → ℚ → Nat → Nat → Option (ℚ × Nat × Nat)
  | 0, _, _, fraction, iteration, g => some (fraction, iteration, g)
  | Nat.succ fuel, lower_bound, upper_bound, _, iteration, g => do
    let fraction := (lower_bound + upper_bound) / 2
    let tail_risk ← analyze_distribution_of_drawdown trades fraction N
      initial_capital drawdown_tolerance number_equity_in_CDF rng g
    let g2 := g + number_equity_in_CDF * N
    if |tail_risk - target| < accuracy then
      some (fraction, iteration + 1, g2)
    else if tail_risk > target then
      bisectLoop trades N initial_capital drawdown_tolerance number_equity_in_CDF
        target accuracy rng fuel lower_bound fraction fraction (iteration + 1) g2
    else
      bisectLoop trades N initial_capital drawdown_tolerance number_equity_in_CDF
        target accuracy rng fuel fraction upper_bound fraction (iteration + 1) g2

/-- C++ index computation for CAR25:
`min(size_t(ceil(0.25 * n)) - 1, n - 1)` (0-indexed). -/
def car25Index (n : Nat) : Nat :=
  min ((⌈(1 / 4 : ℚ) * (n : ℚ)⌉).toNat - 1) (n - 1)

/-- C++ CAR25 selection: sort the collected values and pick the element at
`car25Index`. -/
def car25_of {α : Type} [LinearOrder α] [Zero α] (cars : List α) : α :=
  (cars.mergeSort (fun a b => decide (a ≤ b))).getD (car25Index cars.length) 0

/-- The CAR-collection loop of C++ `risk_normalization`: simulate the given
number of curves at the solved fraction and record each curve's CAGR
(`years = number_days_in_forecast / 252`). -/
noncomputable def carList (trades : List ℚ) (fraction : ℚ) (N : Nat)
    (initial_capital : ℚ) (number_days_in_forecast : Nat) (rng : Rng) :
    Nat → Nat → Option (List ℝ)
  | _, 0 => some []
  | g, Nat.succ k => do
    let res ← make_one_equity_sequence trades fraction N initial_capital rng g
    let years : ℝ := (number_days_in_forecast : ℝ) / 252
    let CAGR := calculateCAGR ((initial_capital : ℚ) : ℝ)
      (((res.1.getLast?.getD 0 : ℚ)) : ℝ) years
    let rest ← carList trades fraction N initial_capital number_days_in_forecast rng (g + N) k
    some (CAGR :: rest)

/-- The repetition loop of C++ `risk_normalization`: per repetition, solve
for the safe fraction by bisection (fuel 1000, bounds `[0,10]`, initial
fraction 1, accuracy `0.003`, target `tail_percentile/100`), then collect
the CAR distribution and its 25th percentile. -/
noncomputable def repLoop (trades : List ℚ) (number_days_in_forecast N : Nat)
    (initial_capital tail_percentile drawdown_tolerance : ℚ)
    (number_equity_in_CDF : Nat) (rng : Rng) :
    Nat → Nat → Option (List ℚ × List ℝ)
  | _, 0 => some ([], [])
  | g, Nat.succ reps => do
    let r ← bisectLoop trades N initial_capital drawdown_tolerance
      number_equity_in_CDF (tail_percentile / 100) (3 / 1000) rng 1000 0 10 1 0 g
    let CAR_list ← carList trades r.1 N initial_capital number_days_in_forecast
      rng r.2.2 number_equity_in_CDF
    let CAR25 : ℝ := car25_of CAR_list
    let rest ← repLoop trades number_days_in_forecast N initial_capital
      tail_percentile drawdown_tolerance number_equity_in_CDF rng
      (r.2.2 + number_equity_in_CDF * N) reps
    some (r.1 :: rest.1, CAR25 :: rest.2)

/-- The four scalars written through the output reference parameters of C++
`risk_normalization`. -/
structure RNResult where
  safe_f_mean : ℝ
  safe_f_stdev : ℝ
  CAR25_mean : ℝ
  CAR25_stdev : ℝ

/-- C++ `risk_normalization`: run the repetitions, then the mean/stdev
summaries of the collected safe fractions and CAR25 values. -/
noncomputable def risk_normalization (trades : List ℚ)
    (number_days_in_forecast number_trades_in_forecast : Nat)
    (initial_capital tail_percentile drawdown_tolerance : ℚ)
    (number_equity_in_CDF number_repetitions : Nat) (rng : Rng) :
    Option RNResult := do
  let lists ← repLoop trades number_days_in_forecast number_trades_in_forecast
    initial_capital tail_percentile drawdown_tolerance number_equity_in_CDF
    rng 0 number_repetitions
  let safe_f_mean := computeMean (lists.1.map fun q => (q : ℝ))
  let safe_f_stdev := computeStdDev (lists.1.map fun q => (q : ℝ)) safe_f_mean
  let CAR25_mean := computeMean lists.2
  let CAR25_stdev := computeStdDev lists.2 CAR25_mean
  some ⟨safe_f_mean, safe_f_stdev, CAR25_mean, CAR25_stdev⟩

/-- Running peaks of the drawdown scan: element i is the maximum of the
initial peak and the first i+1 points. -/
def runningPeaks (peak : ℚ) : List ℚ → List ℚ
  | [] => []
  | e :: rest => max peak e :: runningPeaks (max peak e) rest

/-- The C++ style update `if e > peak then e else peak` is the maximum. -/
lemma if_gt_eq_max (peak e : ℚ) : (if e > peak then e else peak) = max peak e := by
  rcases le_or_lt e peak with h | h
  · rw [if_neg (not_lt.mpr h), max_eq_left h]
  · rw [if_pos h, max_eq_right h.le]

/-- The drawdown scan computes the running maximum of the per-point
relative declines from the running peak. -/
lemma drawdownAux_eq_foldl (l : List ℚ) : ∀ peak m,
    drawdownAux peak m l =
      List.foldl max m
        (List.zipWith (fun p e => (p - e) / p) (runningPeaks peak l) l) := by
  induction l with
  | nil => intro peak m; rfl
  | cons e rest ih =>
    intro peak m
    simp only [drawdownAux, if_gt_eq_max, runningPeaks, List.zipWith_cons_cons,
      List.foldl_cons]
    exact ih (max peak e) (max m ((max peak e - e) / max peak e))

/-- On a non-decreasing tail the drawdown scan never leaves zero. -/
lemma drawdownAux_eq_zero_of_chain (l : List ℚ) : ∀ peak,
    List.Chain (· ≤ ·) peak l → drawdownAux peak 0 l = 0 := by
  induction l with
  | nil => intro peak _; rfl
  | cons e rest ih =>
    intro peak hch
    rw [List.chain_cons] at hch
    obtain ⟨hpe, hch⟩ := hch
    simp only [drawdownAux, if_gt_eq_max, max_eq_right hpe, sub_self, zero_div,
      lt_irrefl, if_false, gt_iff_lt]
    exact ih e hch

/-- The seed of a left fold by `max` is a lower bound for the result. -/
lemma le_foldl_max (l : List ℚ) : ∀ m : ℚ, m ≤ List.foldl max m l := by
  induction l with
  | nil => intro m; exact le_refl m
  | cons x xs ih =>
    intro m
    rw [List.foldl_cons]
    exact le_trans (le_max_left m x) (ih (max m x))

/-- A left fold by `max` stays below any common strict upper bound. -/
lemma foldl_max_lt (c : ℚ) (l : List ℚ) : ∀ m : ℚ, m < c → (∀ x ∈ l, x < c) →
    List.foldl max m l < c := by
  induction l with
  | nil => intro m hm _; exact hm
  | cons x xs ih =>
    intro m hm hl
    rw [List.foldl_cons]
    exact ih (max m x) (max_lt hm (hl x (List.mem_cons_self x xs)))
      (fun y hy => hl y (List.mem_cons_of_mem x hy))

/-- Every running peak dominates the initial peak. -/
lemma peak_le_runningPeaks (l : List ℚ) : ∀ peak p, p ∈ runningPeaks peak l → peak ≤ p := by
  induction l with
  | nil => intro peak p hp; simp [runningPeaks] at hp
  | cons e rest ih =>
    intro peak p hp
    simp only [runningPeaks, List.mem_cons] at hp
    rcases hp with rfl | hp
    · exact le_max_left peak e
    · exact le_trans (le_max_left peak e) (ih (max peak e) p hp)

/-- With a positive initial peak and positive curve points, every per-point
relative decline lies in `[0, 1)`. -/
lemma zip_term_bounds (l : List ℚ) : ∀ peak, 0 < peak → (∀ e ∈ l, 0 < e) →
    ∀ d ∈ List.zipWith (fun p e => (p - e) / p) (runningPeaks peak l) l,
      0 ≤ d ∧ d < 1 := by
  induction l with
  | nil => intro peak _ _ d hd; simp [runningPeaks] at hd
  | cons e rest ih =>
    intro peak hpeak hl d hd
    have he : 0 < e := hl e (List.mem_cons_self e rest)
    have hp2 : 0 < max peak e := lt_max_of_lt_left hpeak
    simp only [runningPeaks, List.zipWith_cons_cons, List.mem_cons] at hd
    rcases hd with rfl | hd
    · refine ⟨div_nonneg (sub_nonneg.mpr (le_max_right peak e)) hp2.le, ?_⟩
      rw [div_lt_one hp2]
      linarith
    · exact ih (max peak e) hp2 (fun y hy => hl y (List.mem_cons_of_mem e hy)) d hd

/-- For a non-empty trade series the sampled index is in bounds and the
lookup succeeds, returning the `getD` value. -/
lemma trades_lookup (trades : List ℚ) (h : trades ≠ []) (k : Nat) :
    k % trades.length < trades.length ∧
      trades[k % trades.length]? = some (trades.getD (k % trades.length) 0) := by
  have hlen : 0 < trades.length := List.length_pos.mpr h
  have hidx : k % trades.length < trades.length := Nat.mod_lt _ hlen
  refine ⟨hidx, ?_⟩
  rw [List.getElem?_eq_getElem hidx, List.getD_eq_getElem?_getD,
    List.getElem?_eq_getElem hidx]
  rfl

/-- Characterization of the simulation loop: on a non-empty series it
succeeds, produces `n` points, and each point satisfies the resampled
compounding recurrence with the draw consumed at that step. -/
lemma equityFrom_spec (trades : List ℚ) (h : trades ≠ []) (fraction : ℚ) (rng : Rng) :
    ∀ (n g : Nat) (prev : ℚ), ∃ rest,
      equityFrom trades fraction rng prev g n = some rest ∧
      rest.length = n ∧
      ∀ i < n, (prev :: rest).getD (i + 1) 0 =
        (prev :: rest).getD i 0 +
          trades.getD (rng (g + i) % trades.length) 0 * fraction *
            (prev :: rest).getD i 0 := by
  intro n
  induction n with
  | zero =>
    intro g prev
    exact ⟨[], rfl, rfl, fun i hi => absurd hi (Nat.not_lt_zero i)⟩
  | succ n ih =>
    intro g prev
    obtain ⟨-, hget⟩ := trades_lookup trades h (rng g)
    obtain ⟨rest2, hr, hlen2, hrec⟩ :=
      ih (g + 1) (prev + trades.getD (rng g % trades.length) 0 * fraction * prev)
    refine ⟨(prev + trades.getD (rng g % trades.length) 0 * fraction * prev) :: rest2,
      ?_, by simp [hlen2], ?_⟩
    · simp only [equityFrom, hget, Option.bind_eq_bind, Option.some_bind, hr]
    · intro i hi
      cases i with
      | zero =>
        simp only [List.getD_cons_succ, List.getD_cons_zero, Nat.add_zero]
      | succ j =>
        have hj : j < n := Nat.lt_of_succ_lt_succ hi
        have hstep := hrec j hj
        have hg : g + 1 + j = g + (j + 1) := by omega
        rw [hg] at hstep
        simp only [List.getD_cons_succ] at hstep ⊢
        exact hstep

/-- At a positive starting equity, if every step multiplier `1 + t*fraction`
is positive, every produced equity point is positive. -/
lemma equityFrom_pos (trades : List ℚ) (fraction : ℚ) (rng : Rng)
    (hstep : ∀ t ∈ trades, 0 < 1 + t * fraction) :
    ∀ (n g : Nat) (prev : ℚ), 0 < prev → ∀ rest,
      equityFrom trades fraction rng prev g n = some rest → ∀ e ∈ rest, 0 < e := by
  intro n
  induction n with
  | zero =>
    intro g prev _ rest hr e he
    simp only [equityFrom, Option.some.injEq] at hr
    subst hr
    simp at he
  | succ n ih =>
    intro g prev hprev rest hr e he
    rcases ht : trades[rng g % trades.length]? with - | t
    · simp only [equityFrom, ht, Option.bind_eq_bind, Option.none_bind] at hr
      exact Option.noConfusion hr
    · rcases hrec : equityFrom trades fraction rng (prev + t * fraction * prev) (g + 1) n
        with - | rest2
      · simp only [equityFrom, ht, Option.bind_eq_bind, Option.some_bind, hrec,
          Option.none_bind] at hr
        exact Option.noConfusion hr
      · simp only [equityFrom, ht, Option.bind_eq_bind, Option.some_bind, hrec,
          Option.some.injEq] at hr
        subst hr
        have htm : t ∈ trades := by
          have hidx : rng g % trades.length < trades.length := by
            rcases Nat.lt_or_ge (rng g % trades.length) trades.length with hlt | hge
            · exact hlt
            · rw [List.getElem?_eq_none (by omega)] at ht
              exact absurd ht (by simp)
          rw [List.getElem?_eq_getElem hidx] at ht
          have : t = trades[rng g % trades.length] := by
            simpa using ht.symm
          rw [this]
          exact List.getElem_mem hidx
        have hnext : 0 < prev + t * fraction * prev := by
          have : prev + t * fraction * prev = prev * (1 + t * fraction) := by ring
          rw [this]
          exact mul_pos hprev (hstep t htm)
        rcases List.mem_cons.mp he with rfl | he2
        · exact hnext
        · exact ih (g + 1) (prev + t * fraction * prev) hnext rest2 hrec e he2

/-- At risk fraction 0 the simulation loop returns a constant curve. -/
lemma equityFrom_zero_fraction (trades : List ℚ) (h : trades ≠ []) (rng : Rng) :
    ∀ (n g : Nat) (prev : ℚ),
      equityFrom trades 0 rng prev g n = some (List.replicate n prev) := by
  intro n
  induction n with
  | zero => intro g prev; rfl
  | succ n ih =>
    intro g prev
    obtain ⟨-, hget⟩ := trades_lookup trades h (rng g)
    simp only [equityFrom, hget, Option.bind_eq_bind, Option.some_bind, mul_zero,
      zero_mul, add_zero, ih (g + 1) prev, List.replicate_succ]

/-- A constant list is a non-decreasing chain from its own value. -/
lemma chain_le_replicate (a : ℚ) : ∀ n, List.Chain (· ≤ ·) a (List.replicate n a) := by
  intro n
  induction n with
  | zero => exact List.Chain.nil
  | succ n ih => exact List.replicate_succ a n ▸ List.chain_cons.mpr ⟨le_refl a, ih⟩

/-- On a non-empty series the one-curve simulation always succeeds. -/
lemma make_one_some (trades : List ℚ) (h : trades ≠ []) (fraction : ℚ) (N : Nat)
    (initial_capital : ℚ) (rng : Rng) (g : Nat) :
    ∃ rest, make_one_equity_sequence trades fraction N initial_capital rng g =
      some (initial_capital :: rest, calculateDrawdown (initial_capital :: rest)) := by
  obtain ⟨rest, hr, -, -⟩ := equityFrom_spec trades h fraction rng N g initial_capital
  exact ⟨rest, by simp only [make_one_equity_sequence, hr, Option.bind_eq_bind,
    Option.some_bind]⟩

/-- At risk fraction 0 the simulated curve is constant at the initial
capital and its drawdown is 0. -/
lemma make_one_zero_fraction (trades : List ℚ) (h : trades ≠ []) (N : Nat)
    (initial_capital : ℚ) (rng : Rng) (g : Nat) :
    make_one_equity_sequence trades 0 N initial_capital rng g =
      some (initial_capital :: List.replicate N initial_capital, 0) := by
  have hdd : calculateDrawdown (initial_capital :: List.replicate N initial_capital) = 0 := by
    rw [calculateDrawdown]
    exact drawdownAux_eq_zero_of_chain _ _
      (List.chain_cons.mpr ⟨le_refl _, chain_le_replicate initial_capital N⟩)
  simp only [make_one_equity_sequence, equityFrom_zero_fraction trades h rng N g,
    Option.bind_eq_bind, Option.some_bind, hdd]

/-- On a non-empty series the exceedance counter always succeeds. -/
lemma countExceed_some (trades : List ℚ) (h : trades ≠ []) (fraction : ℚ) (N : Nat)
    (initial_capital drawdown_tolerance : ℚ) (rng : Rng) :
    ∀ (k g : Nat), ∃ c,
      countExceed trades fraction N initial_capital drawdown_tolerance rng g k = some c := by
  intro k
  induction k with
  | zero => intro g; exact ⟨0, rfl⟩
  | succ k ih =>
    intro g
    obtain ⟨rest, hm⟩ := make_one_some trades h fraction N initial_capital rng g
    obtain ⟨c, hc⟩ := ih (g + N)
    refine ⟨(if calculateDrawdown (initial_capital :: rest) > drawdown_tolerance
      then 1 else 0) + c, ?_⟩
    simp only [countExceed, hm, Option.bind_eq_bind, Option.some_bind, hc]

/-- On a non-empty series the tail-probability estimator always succeeds. -/
lemma analyze_some (trades : List ℚ) (h : trades ≠ []) (fraction : ℚ) (N : Nat)
    (initial_capital drawdown_tolerance : ℚ) (nCDF : Nat) (rng : Rng) (g : Nat) :
    ∃ q, analyze_distribution_of_drawdown trades fraction N initial_capital
      drawdown_tolerance nCDF rng g = some q := by
  obtain ⟨c, hc⟩ := countExceed_some trades h fraction N initial_capital
    drawdown_tolerance rng nCDF g
  exact ⟨(c : ℚ) / (nCDF : ℚ), by
    simp only [analyze_distribution_of_drawdown, hc, Option.bind_eq_bind,
      Option.some_bind]⟩

/-- At risk fraction 0 no simulated curve ever exceeds a positive
drawdown tolerance. -/
lemma countExceed_zero_fraction (trades : List ℚ) (h : trades ≠ []) (N : Nat)
    (initial_capital drawdown_tolerance : ℚ) (htol : 0 < drawdown_tolerance) (rng : Rng) :
    ∀ (k g : Nat),
      countExceed trades 0 N initial_capital drawdown_tolerance rng g k = some 0 := by
  intro k
  induction k with
  | zero => intro g; rfl
  | succ k ih =>
    intro g
    have hno : ¬ ((0 : ℚ) > drawdown_tolerance) := not_lt.mpr htol.le
    simp only [countExceed, make_one_zero_fraction trades h N initial_capital rng g,
      Option.bind_eq_bind, Option.some_bind, ih (g + N), hno, if_false, Nat.zero_add]

/-- Bisection loop invariant: on a non-empty series the loop always returns,
executes at most `fuel` further iterations, and keeps the recorded fraction
inside the current (hence the initial) bracketing interval. -/
lemma bisectLoop_spec (trades : List ℚ) (h : trades ≠ []) (N : Nat)
    (initial_capital drawdown_tolerance : ℚ) (nCDF : Nat) (target accuracy : ℚ)
    (rng : Rng) :
    ∀ (fuel : Nat) (lower_bound upper_bound fraction : ℚ) (iteration g : Nat),
      0 ≤ lower_bound → lower_bound ≤ upper_bound → upper_bound ≤ 10 →
      0 ≤ fraction → fraction ≤ 10 →
      ∃ frac iters g2,
        bisectLoop trades N initial_capital drawdown_tolerance nCDF target accuracy
            rng fuel lower_bound upper_bound fraction iteration g =
          some (frac, iters, g2) ∧
        iters ≤ iteration + fuel ∧ 0 ≤ frac ∧ frac ≤ 10 := by
  intro fuel
  induction fuel with
  | zero =>
    intro lower_bound upper_bound fraction iteration g _ _ _ h3 h4
    exact ⟨fraction, iteration, g, rfl, by omega, h3, h4⟩
  | succ fuel ih =>
    intro lower_bound upper_bound fraction iteration g h0 h1 h2 h3 h4
    have hml : lower_bound ≤ (lower_bound + upper_bound) / 2 := by linarith
    have hmu : (lower_bound + upper_bound) / 2 ≤ upper_bound := by linarith
    have hm0 : 0 ≤ (lower_bound + upper_bound) / 2 := le_trans h0 hml
    have hm10 : (lower_bound + upper_bound) / 2 ≤ 10 := le_trans hmu h2
    obtain ⟨tr, htr⟩ := analyze_some trades h ((lower_bound + upper_bound) / 2) N
      initial_capital drawdown_tolerance nCDF rng g
    by_cases hdone : |tr - target| < accuracy
    · refine ⟨(lower_bound + upper_bound) / 2, iteration + 1, g + nCDF * N, ?_,
        by omega, hm0, hm10⟩
      simp only [bisectLoop, htr, Option.bind_eq_bind, Option.some_bind, if_pos hdone]
    · by_cases hgt : tr > target
      · obtain ⟨frac, iters, g2, hb, hi, hf0, hf10⟩ :=
          ih lower_bound ((lower_bound + upper_bound) / 2)
            ((lower_bound + upper_bound) / 2) (iteration + 1) (g + nCDF * N)
            h0 hml hm10 hm0 hm10
        refine ⟨frac, iters, g2, ?_, by omega, hf0, hf10⟩
        simp only [bisectLoop, htr, Option.bind_eq_bind, Option.some_bind,
          if_neg hdone, if_pos hgt]
        exact hb
      · obtain ⟨frac, iters, g2, hb, hi, hf0, hf10⟩ :=
          ih ((lower_bound + upper_bound) / 2) upper_bound
            ((lower_bound + upper_bound) / 2) (iteration + 1) (g + nCDF * N)
            hm0 hmu h2 hm0 hm10
        refine ⟨frac, iters, g2, ?_, by omega, hf0, hf10⟩
        simp only [bisectLoop, htr, Option.bind_eq_bind, Option.some_bind,
          if_neg hdone, if_neg hgt]
        exact hb

/-- C1: `risk_normalization`, called on an empty trade series with otherwise
valid parameters, does not refuse with an explicit error: it proceeds into
the bisection and fails at the out-of-bounds trade lookup (undefined
behaviour in the C++, `none` in this model).  The only emptiness check of
the program is in `main`, outside the engine. -/
theorem C1_empty_series_no_refusal :
    risk_normalization [] 504 1 100000 5 (1 / 10) 1 1 (fun _ => 0) = none := rfl

/-- C2: for any valid parameter set (non-empty series, positive counts and
capital), the per-repetition bisection loop of `risk_normalization` (fuel
1000, bounds `[0,10]`, initial fraction 1) returns, executes at most 1000
iterations, and the recorded safe fraction lies in `[0, 10]`. -/
theorem C2_bisection_terminates (trades : List ℚ) (h : trades ≠ [])
    (N nCDF : Nat) (hN : 0 < N) (hCDF : 0 < nCDF)
    (initial_capital : ℚ) (hic : 0 < initial_capital)
    (drawdown_tolerance target accuracy : ℚ) (rng : Rng) (g : Nat) :
    ∃ frac iters g2,
      bisectLoop trades N initial_capital drawdown_tolerance nCDF target accuracy
          rng 1000 0 10 1 0 g = some (frac, iters, g2) ∧
      iters ≤ 1000 ∧ 0 ≤ frac ∧ frac ≤ 10 := by
  obtain ⟨frac, iters, g2, hb, hi, h0, h10⟩ :=
    bisectLoop_spec trades h N initial_capital drawdown_tolerance nCDF target
      accuracy rng 1000 0 10 1 0 g (le_refl 0) (by norm_num) (le_refl 10)
      (by norm_num) (by norm_num)
  exact ⟨frac, iters, g2, hb, by omega, h0, h10⟩

/-- Witness for C2 at a concrete valid parameter set. -/
theorem C2_bisection_terminates_witness :
    (([(0 : ℚ)] : List ℚ) ≠ [] ∧ 0 < 1 ∧ (0 : ℚ) < 100) ∧
    ∃ frac iters g2,
      bisectLoop [(0 : ℚ)] 1 100 (1 / 10) 1 (5 / 100) (3 / 1000) (fun _ => 0)
          1000 0 10 1 0 0 = some (frac, iters, g2) ∧
      iters ≤ 1000 ∧ 0 ≤ frac ∧ frac ≤ 10 :=
  ⟨⟨List.cons_ne_nil 0 [], Nat.one_pos, by norm_num⟩,
    C2_bisection_terminates [(0 : ℚ)] (List.cons_ne_nil 0 []) 1 1 Nat.one_pos
      Nat.one_pos 100 (by norm_num) (1 / 10) (5 / 100) (3 / 1000) (fun _ => 0) 0⟩

/-- C3: on a non-empty series, `make_one_equity_sequence` produces a curve
of `N+1` points starting at the initial capital, and each step applies one
resampled trade return (index in `[0, series.length - 1]`) scaled by the
fraction to the current equity. -/
theorem C3_make_one_contract (trades : List ℚ) (h : trades ≠ []) (fraction : ℚ)
    (number_trades_in_forecast : Nat) (initial_capital : ℚ) (rng : Rng) (g : Nat) :
    ∃ curve dd,
      make_one_equity_sequence trades fraction number_trades_in_forecast
        initial_capital rng g = some (curve, dd) ∧
      curve.length = number_trades_in_forecast + 1 ∧
      curve.getD 0 0 = initial_capital ∧
      ∀ i, 1 ≤ i → i ≤ number_trades_in_forecast →
        rng (g + (i - 1)) % trades.length < trades.length ∧
        curve.getD i 0 =
          curve.getD (i - 1) 0 +
            trades.getD (rng (g + (i - 1)) % trades.length) 0 * fraction *
              curve.getD (i - 1) 0 := by
  obtain ⟨rest, hr, hlen, hrec⟩ :=
    equityFrom_spec trades h fraction rng number_trades_in_forecast g initial_capital
  refine ⟨initial_capital :: rest, calculateDrawdown (initial_capital :: rest),
    ?_, by simp [hlen], List.getD_cons_zero, ?_⟩
  · simp only [make_one_equity_sequence, hr, Option.bind_eq_bind, Option.some_bind]
  · intro i h1 h2
    obtain ⟨j, rfl⟩ : ∃ j, i = j + 1 := ⟨i - 1, by omega⟩
    have hj : j < number_trades_in_forecast := by omega
    have hstep := hrec j hj
    have hidx := (trades_lookup trades h (rng (g + j))).1
    simp only [Nat.add_sub_cancel]
    exact ⟨hidx, hstep⟩

/-- Witness for C3 at a concrete non-empty series. -/
theorem C3_make_one_contract_witness :
    ([(1 / 100 : ℚ)] ≠ []) ∧
    ∃ curve dd,
      make_one_equity_sequence [(1 / 100 : ℚ)] 1 2 100 (fun k => k) 0 =
        some (curve, dd) ∧
      curve.length = 2 + 1 ∧
      curve.getD 0 0 = 100 ∧
      ∀ i, 1 ≤ i → i ≤ 2 →
        (0 + (i - 1)) % [(1 / 100 : ℚ)].length < [(1 / 100 : ℚ)].length ∧
        curve.getD i 0 =
          curve.getD (i - 1) 0 +
            [(1 / 100 : ℚ)].getD ((0 + (i - 1)) % [(1 / 100 : ℚ)].length) 0 * 1 *
              curve.getD (i - 1) 0 :=
  ⟨List.cons_ne_nil _ _,
    C3_make_one_contract [(1 / 100 : ℚ)] (List.cons_ne_nil _ _) 1 2 100 (fun k => k) 0⟩

/-- C4: `calculateDrawdown` returns the maximum over all points of
`(peak - equity)/peak` with the running peak up to and including the current
point; it returns 0 on every non-decreasing curve, and `1/5` on the curve
`[100, 90, 95, 80, 120]`. -/
theorem C4_calculateDrawdown_correct :
    (∀ (c0 : ℚ) (rest : List ℚ),
        calculateDrawdown (c0 :: rest) =
          List.foldl max 0 (List.zipWith (fun p e => (p - e) / p)
            (runningPeaks c0 (c0 :: rest)) (c0 :: rest))) ∧
    (∀ curve : List ℚ, curve.Chain' (· ≤ ·) → calculateDrawdown curve = 0) ∧
    calculateDrawdown [100, 90, 95, 80, 120] = 1 / 5 := by
  refine ⟨?_, ?_, ?_⟩
  · intro c0 rest
    exact drawdownAux_eq_foldl (c0 :: rest) c0 0
  · intro curve hch
    cases curve with
    | nil => rfl
    | cons c0 rest =>
      exact drawdownAux_eq_zero_of_chain (c0 :: rest) c0
        (List.chain_cons.mpr ⟨le_refl c0, hch⟩)
  · norm_num [calculateDrawdown, drawdownAux]

/-- Witness for C4 on a concrete non-decreasing curve. -/
theorem C4_calculateDrawdown_correct_witness :
    List.Chain' (· ≤ ·) [(1 : ℚ), 2, 3] ∧ calculateDrawdown [(1 : ℚ), 2, 3] = 0 :=
  ⟨by norm_num [List.chain'_cons, List.chain'_singleton],
    C4_calculateDrawdown_correct.2.1 [(1 : ℚ), 2, 3]
      (by norm_num [List.chain'_cons, List.chain'_singleton])⟩

/-- C5 counterexample: with the non-empty series `[-2]`, non-negative
fraction 1 and positive capital 100, the simulator produces the curve
`[100, -100]` whose drawdown is 2, which is not `< 1`. -/
theorem C5_counterexample :
    make_one_equity_sequence [-2] 1 1 100 (fun _ => 0) 0 = some ([100, -100], 2) ∧
    ¬ ((2 : ℚ) < 1) := by
  constructor
  · norm_num [make_one_equity_sequence, equityFrom, calculateDrawdown, drawdownAux]
  · norm_num

/-- C5 (amended): with positive initial capital and a non-empty series, the
running peaks used as divisors are unconditionally positive (they dominate
the initial capital) and the drawdown is unconditionally non-negative; the
drawdown lies below 1 under the additional hypothesis that every step
multiplier `1 + t * fraction` is positive (equity stays positive). -/
theorem C5_drawdown_bounds (trades : List ℚ) (h : trades ≠ []) (fraction : ℚ)
    (hfrac : 0 ≤ fraction) (N : Nat) (initial_capital : ℚ)
    (hic : 0 < initial_capital) (rng : Rng) (g : Nat) :
    ∃ curve dd,
      make_one_equity_sequence trades fraction N initial_capital rng g =
        some (curve, dd) ∧
      0 ≤ dd ∧
      (∀ p ∈ runningPeaks initial_capital curve, 0 < p) ∧
      ((∀ t ∈ trades, 0 < 1 + t * fraction) → dd < 1) := by
  obtain ⟨rest, hr, hlen, -⟩ := equityFrom_spec trades h fraction rng N g initial_capital
  have hdd : calculateDrawdown (initial_capital :: rest) =
      List.foldl max 0 (List.zipWith (fun p e => (p - e) / p)
        (runningPeaks initial_capital (initial_capital :: rest))
        (initial_capital :: rest)) :=
    drawdownAux_eq_foldl (initial_capital :: rest) initial_capital 0
  refine ⟨initial_capital :: rest, calculateDrawdown (initial_capital :: rest),
    ?_, ?_, ?_, ?_⟩
  · simp only [make_one_equity_sequence, hr, Option.bind_eq_bind, Option.some_bind]
  · rw [hdd]
    exact le_foldl_max _ 0
  · intro p hp
    exact lt_of_lt_of_le hic (peak_le_runningPeaks _ initial_capital p hp)
  · intro hstep
    have hpos : ∀ e ∈ rest, 0 < e :=
      equityFrom_pos trades fraction rng hstep N g initial_capital hic rest hr
    have hall : ∀ e ∈ initial_capital :: rest, 0 < e := by
      intro e he
      rcases List.mem_cons.mp he with rfl | he2
      · exact hic
      · exact hpos e he2
    rw [hdd]
    exact foldl_max_lt 1 _ 0 one_pos
      (fun x hx => (zip_term_bounds (initial_capital :: rest) initial_capital
        hic hall x hx).2)

/-- Witness for C5 (amended) at a concrete series and fraction, with the
step-multiplier hypothesis of the conditional part also discharged. -/
theorem C5_drawdown_bounds_witness :
    ∃ curve dd,
      make_one_equity_sequence [(1 / 10 : ℚ), -1 / 10] (1 / 2) 3 100 (fun k => k) 0 =
        some (curve, dd) ∧
      0 ≤ dd ∧
      (∀ p ∈ runningPeaks 100 curve, 0 < p) ∧
      ((∀ t ∈ [(1 / 10 : ℚ), -1 / 10], 0 < 1 + t * (1 / 2)) → dd < 1) :=
  C5_drawdown_bounds [(1 / 10 : ℚ), -1 / 10] (List.cons_ne_nil _ _) (1 / 2)
    (by norm_num) 3 100 (by norm_num) (fun k => k) 0

/-- The comparator used in the CAR25 sort produces a `≤`-sorted list. -/
lemma mergeSort_le_sorted (l : List ℚ) :
    List.Pairwise (· ≤ ·) (l.mergeSort (fun a b => decide (a ≤ b))) := by
  have h := @List.sorted_mergeSort ℚ (fun a b => decide (a ≤ b))
    (fun a b c hab hbc => by
      simp only [decide_eq_true_eq] at hab hbc ⊢
      exact le_trans hab hbc)
    (fun a b => by
      simp only [Bool.or_eq_true, decide_eq_true_eq]
      exact le_total a b) l
  exact h.imp (fun hab => by simpa using hab)

/-- The C++ 0-indexed CAR25 position equals the 1-indexed rank
`ceil(0.25 * n)` clamped to `[1, n]`, minus one. -/
lemma car25Index_rank (n : Nat) (hn : 1 ≤ n) :
    car25Index n = min (⌈(n : ℚ) / 4⌉).toNat n - 1 := by
  have he : (1 / 4 : ℚ) * (n : ℚ) = (n : ℚ) / 4 := by ring
  have h1 : (0 : ℤ) < ⌈(n : ℚ) / 4⌉ := by
    apply Int.ceil_pos.mpr
    have hn2 : (0 : ℚ) < (n : ℚ) := by exact_mod_cast hn
    linarith
  rw [car25Index, he]
  omega

/-- C6: the per-repetition CAR25 sorts the collected CAR values (the result
is a sorted permutation) and picks the element at 1-indexed rank
`ceil(0.25 * count)` clamped to the valid range; on `[1,…,8]` it selects 2. -/
theorem C6_car25_selection (cars : List ℚ) (h : cars ≠ []) :
    car25_of cars =
      (cars.mergeSort (fun a b => decide (a ≤ b))).getD
        (min (⌈(cars.length : ℚ) / 4⌉).toNat cars.length - 1) 0 ∧
    List.Pairwise (· ≤ ·) (cars.mergeSort (fun a b => decide (a ≤ b))) ∧
    (cars.mergeSort (fun a b => decide (a ≤ b))).Perm cars ∧
    (cars = [1, 2, 3, 4, 5, 6, 7, 8] → car25_of cars = 2) := by
  refine ⟨?_, mergeSort_le_sorted cars, List.mergeSort_perm cars _, ?_⟩
  · rw [car25_of, car25Index_rank cars.length
      (by have := List.length_pos.mpr h; omega)]
  · intro hc
    subst hc
    norm_num [car25_of, car25Index, List.mergeSort]
    rfl

/-- Witness for C6 at the fixture list. -/
theorem C6_car25_selection_witness :
    ([(1 : ℚ), 2, 3, 4, 5, 6, 7, 8] ≠ []) ∧
    car25_of [(1 : ℚ), 2, 3, 4, 5, 6, 7, 8] = 2 :=
  ⟨List.cons_ne_nil _ _,
    (C6_car25_selection [(1 : ℚ), 2, 3, 4, 5, 6, 7, 8]
      (List.cons_ne_nil _ _)).2.2.2 rfl⟩

/-- C7: `computeMean` is the arithmetic mean on non-empty input,
`computeStdDev` is 0 below two elements and otherwise the non-negative
square root of the Bessel-corrected (divisor `n-1`) sample variance; on
`[2,4,4,4,5,5,7,9]` the mean is 5 and the sample stdev is within `0.001`
of `2.138`. -/
theorem C7_statistics :
    (∀ data : List ℝ, data ≠ [] → computeMean data = data.sum / data.length) ∧
    (∀ (data : List ℝ) (mean : ℝ), data.length < 2 → computeStdDev data mean = 0) ∧
    (∀ (data : List ℝ) (mean : ℝ), 2 ≤ data.length →
        0 ≤ computeStdDev data mean ∧
        computeStdDev data mean ^ 2 =
          (data.map fun x => (x - mean) * (x - mean)).sum /
            ((data.length - 1 : ℕ) : ℝ)) ∧
    computeMean [2, 4, 4, 4, 5, 5, 7, 9] = 5 ∧
    |computeStdDev [2, 4, 4, 4, 5, 5, 7, 9] 5 - 2.138| < 1 / 1000 := by
  have hvar : ∀ (data : List ℝ) (mean : ℝ),
      0 ≤ (data.map fun x => (x - mean) * (x - mean)).sum /
        ((data.length - 1 : ℕ) : ℝ) := by
    intro data mean
    apply div_nonneg
    · apply List.sum_nonneg
      intro x hx
      obtain ⟨y, -, rfl⟩ := List.mem_map.mp hx
      exact mul_self_nonneg _
    · positivity
  refine ⟨?_, ?_, ?_, ?_, ?_⟩
  · intro data hd
    rw [computeMean, if_neg (by simp [List.isEmpty_iff, hd])]
  · intro data mean hlen
    rw [computeStdDev, if_pos hlen]
  · intro data mean hlen
    rw [computeStdDev, if_neg (by omega)]
    exact ⟨Real.sqrt_nonneg _, Real.sq_sqrt (hvar data mean)⟩
  · norm_num [computeMean]
  · have hs : computeStdDev [2, 4, 4, 4, 5, 5, 7, 9] 5 = Real.sqrt (32 / 7) := by
      norm_num [computeStdDev]
    have h1 : Real.sqrt (32 / 7) < 2139 / 1000 := by
      rw [Real.sqrt_lt' (by norm_num)]
      norm_num
    have h2 : (2137 / 1000 : ℝ) < Real.sqrt (32 / 7) := by
      rw [Real.lt_sqrt (by norm_num)]
      norm_num
    have he : (2.138 : ℝ) = 2138 / 1000 := by norm_num
    rw [hs, he, abs_lt]
    constructor <;> linarith

/-- Witness for C7 on a concrete non-empty list. -/
theorem C7_statistics_witness : computeMean [(1 : ℝ), 3] = 2 := by
  have h := C7_statistics.1 [(1 : ℝ), 3] (List.cons_ne_nil _ _)
  rw [h]
  norm_num

/-- C8: `calculateCAGR` returns the sentinel 0 whenever any argument is
non-positive, returns `((final/initial)^(1/years) - 1) * 100` when all are
positive, and evaluates to exactly 10 on `(100000, 121000, 2)`. -/
theorem C8_calculateCAGR_correct :
    (∀ initial_equity final_equity years : ℝ,
        initial_equity ≤ 0 ∨ final_equity ≤ 0 ∨ years ≤ 0 →
        calculateCAGR initial_equity final_equity years = 0) ∧
    (∀ initial_equity final_equity years : ℝ,
        0 < initial_equity → 0 < final_equity → 0 < years →
        calculateCAGR initial_equity final_equity years =
          ((final_equity / initial_equity) ^ ((1 : ℝ) / years) - 1) * 100) ∧
    calculateCAGR 100000 121000 2 = 10 := by
  refine ⟨?_, ?_, ?_⟩
  · intro i f y hi
    rw [calculateCAGR, if_pos hi]
  · intro i f y hi hf hy
    rw [calculateCAGR, if_neg (by push_neg; exact ⟨hi, hf, hy⟩)]
  · rw [calculateCAGR, if_neg (by push_neg; norm_num)]
    have h1 : (121000 : ℝ) / 100000 = 1.21 := by norm_num
    rw [h1]
    have h2 : (1.21 : ℝ) = (1.1 : ℝ) ^ ((2 : ℕ) : ℝ) := by
      rw [Real.rpow_natCast]
      norm_num
    rw [h2, ← Real.rpow_mul (by norm_num : (0 : ℝ) ≤ 1.1)]
    have h3 : ((2 : ℕ) : ℝ) * ((1 : ℝ) / 2) = 1 := by norm_num
    rw [h3, Real.rpow_one]
    norm_num

/-- Witness for C8 in the sentinel case. -/
theorem C8_calculateCAGR_correct_witness :
    ((-1 : ℝ) ≤ 0 ∨ (1 : ℝ) ≤ 0 ∨ (1 : ℝ) ≤ 0) ∧ calculateCAGR (-1) 1 1 = 0 :=
  ⟨Or.inl (by norm_num), C8_calculateCAGR_correct.1 (-1) 1 1 (Or.inl (by norm_num))⟩

/-- C9: at risk fraction 0 every simulated curve is constant at the initial
capital, so the tail probability of exceeding any positive drawdown
tolerance is exactly 0. -/
theorem C9_zero_fraction_tail (trades : List ℚ) (h : trades ≠ [])
    (N : Nat) (initial_capital : ℚ) (hic : 0 < initial_capital)
    (drawdown_tolerance : ℚ) (htol : 0 < drawdown_tolerance)
    (nCDF : Nat) (hCDF : 0 < nCDF) (rng : Rng) (g : Nat) :
    analyze_distribution_of_drawdown trades 0 N initial_capital
      drawdown_tolerance nCDF rng g = some 0 ∧
    ∀ g2 : Nat, make_one_equity_sequence trades 0 N initial_capital rng g2 =
      some (initial_capital :: List.replicate N initial_capital, 0) := by
  constructor
  · simp only [analyze_distribution_of_drawdown,
      countExceed_zero_fraction trades h N initial_capital drawdown_tolerance htol
        rng nCDF g,
      Option.bind_eq_bind, Option.some_bind, Nat.cast_zero, zero_div]
  · intro g2
    exact make_one_zero_fraction trades h N initial_capital rng g2

/-- Witness for C9 at a concrete valid parameter set. -/
theorem C9_zero_fraction_tail_witness :
    ((0 : ℚ) < 100 ∧ (0 : ℚ) < 1 / 20 ∧ 0 < 2) ∧
    analyze_distribution_of_drawdown [(1 / 100 : ℚ)] 0 3 100 (1 / 20) 2
      (fun k => k) 0 = some 0 :=
  ⟨⟨by norm_num, by norm_num, by norm_num⟩,
    (C9_zero_fraction_tail [(1 / 100 : ℚ)] (List.cons_ne_nil _ _) 3 100
      (by norm_num) (1 / 20) (by norm_num) 2 (by norm_num) (fun k => k) 0).1⟩

/-- C10: `computeMean` of the empty list is 0, so with zero repetitions
`risk_normalization` returns all-zero aggregates. -/
theorem C10_empty_mean_zero :
    computeMean [] = 0 ∧
    ∀ (trades : List ℚ) (number_days_in_forecast number_trades_in_forecast : Nat)
      (initial_capital tail_percentile drawdown_tolerance : ℚ)
      (number_equity_in_CDF : Nat) (rng : Rng),
      risk_normalization trades number_days_in_forecast number_trades_in_forecast
          initial_capital tail_percentile drawdown_tolerance
          number_equity_in_CDF 0 rng =
        some ⟨0, 0, 0, 0⟩ :=
  ⟨rfl, fun _ _ _ _ _ _ _ _ => rfl⟩

end RiskNormalization
